import Mathlib

/-!
Verification of the 2D rasterization / region-fill core of Silnik2D
(src/main.cpp).  Coordinates that the C++ code holds in `float` are
modelled as exact rationals (every float value is a rational number);
colors are exact RGBA tuples compared componentwise, as sf::Color does.
-/

namespace Silnik2D

/-- RGBA color (sf::Color); equality is exact componentwise comparison. -/
structure Color where
  r : ℕ
  g : ℕ
  b : ℕ
  a : ℕ
deriving DecidableEq

/-- Pixel grid (sf::Image): a fixed width and height plus a total color map.
Out-of-bounds coordinates carry an irrelevant color value; every algorithm
bounds-checks before reading or writing, as the C++ code does. -/
structure Image where
  width : ℕ
  height : ℕ
  pix : ℤ → ℤ → Color

/-- Bounds check of boundaryFill/floodFill (main.cpp lines 309, 323-325,
344, 358-360): x < 0 or y < 0 or x >= size.x or y >= size.y rejects; the
unsigned casts in the C++ comparison are guarded by the sign checks. -/
def inB (img : Image) (p : ℤ × ℤ) : Prop :=
  0 ≤ p.1 ∧ p.1 < (img.width : ℤ) ∧ 0 ≤ p.2 ∧ p.2 < (img.height : ℤ)

instance (img : Image) (p : ℤ × ℤ) : Decidable (inB img p) := by
  unfold inB
  infer_instance

/-- sf::Image::setPixel: pointwise update of the color map. -/
def setPixel (img : Image) (x y : ℤ) (c : Color) : Image :=
  { img with pix := fun u v => if u = x ∧ v = y then c else img.pix u v }

/-- The four 4-connected neighbors, in the push order of main.cpp lines
333-336 and 368-371: right, left, down, up. -/
def neighbors (p : ℤ × ℤ) : List (ℤ × ℤ) :=
  [(p.1 + 1, p.2), (p.1 - 1, p.2), (p.1, p.2 + 1), (p.1, p.2 - 1)]

/-- Common BFS loop of boundaryFill (main.cpp lines 319-337) and floodFill
(lines 354-372).  The two loops are textually identical except for the
per-pixel color test, abstracted here as keep (true: recolor the pixel to
fc and push its four neighbors; false: skip without enqueueing).  The C++
loop runs until the queue empties; fuel bounds the number of pops, and the
top-level wrappers pass enough fuel for the loop to drain the queue (see
the fuel-sufficiency lemmas below). -/
def fillLoop (keep : Color → Bool) (fc : Color) : ℕ → Image → List (ℤ × ℤ) → Image
  | 0, img, _ => img
  | _ + 1, img, [] => img
  | fuel + 1, img, p :: q =>
    if inB img p then
      if keep (img.pix p.1 p.2) then
        fillLoop keep fc fuel (setPixel img p.1 p.2 fc) (q ++ neighbors p)
      else fillLoop keep fc fuel img q
    else fillLoop keep fc fuel img q

/-- Recoloring test of boundaryFill (main.cpp line 328): process a pixel
unless its color equals the boundary color or the fill color. -/
def keepB (fc bc : Color) : Color → Bool :=
  fun c => !(decide (c = bc ∨ c = fc))

/-- Recoloring test of floodFill (main.cpp line 363): process a pixel
unless its color differs from the captured background color or equals the
fill color. -/
def keepF (fc bg : Color) : Color → Bool :=
  fun c => !(decide (c ≠ bg ∨ c = fc))

/-- In-bounds pixels (as natural-number pairs) whose color still passes the
keep test: the pixels a fill loop can still recolor.  This drives the fuel
bound: each pop either discards an entry or recolors one of these. -/
def eligSet (keep : Color → Bool) (img : Image) : Finset (ℕ × ℕ) :=
  (Finset.range img.width ×ˢ Finset.range img.height).filter
    fun q => keep (img.pix (q.1 : ℤ) (q.2 : ℤ)) = true

/-- Fuel sufficient to drain the BFS queue from a single seed: each pop
removes a queue entry and a recoloring pop adds four, while strictly
shrinking eligSet, so 5 * card + queue length strictly decreases. -/
def fillFuel (keep : Color → Bool) (img : Image) : ℕ :=
  5 * (eligSet keep img).card + 1

/-- PrimitiveRenderer::boundaryFill (main.cpp lines 304-338): bounds-check
the seed, return if the seed pixel already has the boundary or fill color,
otherwise run the BFS loop seeded with (x, y). -/
def boundaryFill (img : Image) (x y : ℤ) (fc bc : Color) : Image :=
  if inB img (x, y) then
    if img.pix x y = bc ∨ img.pix x y = fc then img
    else fillLoop (keepB fc bc) fc (fillFuel (keepB fc bc) img) img [(x, y)]
  else img

/-- PrimitiveRenderer::floodFill (main.cpp lines 340-373): bounds-check the
seed, capture the background color at the seed, return if it already equals
the fill color, otherwise run the BFS loop seeded with (x, y). -/
def floodFill (img : Image) (x y : ℤ) (fc : Color) : Image :=
  if inB img (x, y) then
    if img.pix x y = fc then img
    else fillLoop (keepF fc (img.pix x y)) fc
      (fillFuel (keepF fc (img.pix x y)) img) img [(x, y)]
  else img

/-- Rounding used throughout the renderer: C++ std::round, nearest integer
with halfway cases away from zero. -/
def roundQ (q : ℚ) : ℤ :=
  if 0 ≤ q then ⌊q + 1 / 2⌋ else -⌊-q + 1 / 2⌋

/-- A 2D position (sf::Vector2f), modelled with exact rational coordinates. -/
structure Vec2 where
  x : ℚ
  y : ℚ
deriving DecidableEq

instance : Inhabited Vec2 := ⟨⟨0, 0⟩⟩

/-- Emission loop of drawLineIncremental (main.cpp lines 177-185), after the
steepness and direction normalization: walk x from round(x0) to round(x1)
inclusive, start the secondary coordinate at y0 and add the slope each step
(so after i steps it is exactly y0 + i * m), round it for emission, and
un-swap the pair when the walk is steep.  In the C++ code dx and dy are
swapped together with the endpoints and recomputed after a direction swap,
so at this point they always equal x1 - x0 and y1 - y0, which is how they
are computed here. -/
def lineWalk (steep : Bool) (x0 y0 x1 y1 : ℚ) : List (ℤ × ℤ) :=
  let dx := x1 - x0
  let dy := y1 - y0
  let m : ℚ := if dx = 0 then 0 else dy / dx
  (List.range (roundQ x1 - roundQ x0 + 1).toNat).map fun (i : ℕ) =>
    let xi : ℤ := roundQ x0 + (i : ℤ)
    let yv : ℚ := y0 + (i : ℚ) * m
    if steep then (roundQ yv, xi) else (xi, roundQ yv)

/-- PrimitiveRenderer::drawLineIncremental (main.cpp lines 147-186): emit a
single pixel for coincident endpoints; otherwise swap the roles of x and y
when the line is steep, then swap the endpoints so the walk runs towards
increasing x, and emit the walked pixels. -/
def drawLineIncremental (a b : Vec2) : List (ℤ × ℤ) :=
  if a.x = b.x ∧ a.y = b.y then [(roundQ a.x, roundQ a.y)]
  else
    let steep : Bool := decide (|b.y - a.y| > |b.x - a.x|)
    let p0 : ℚ × ℚ := if steep then (a.y, a.x) else (a.x, a.y)
    let p1 : ℚ × ℚ := if steep then (b.y, b.x) else (b.x, b.y)
    let q0 : ℚ × ℚ := if p1.1 < p0.1 then p1 else p0
    let q1 : ℚ × ℚ := if p1.1 < p0.1 then p0 else p1
    lineWalk steep q0.1 q0.2 q1.1 q1.2

/-- PrimitiveRenderer::cross (main.cpp lines 255-259): z-component of the
cross product of (b - a) and (c - a). -/
def cross (a b c : Vec2) : ℚ :=
  (b.x - a.x) * (c.y - a.y) - (b.y - a.y) * (c.x - a.x)

/-- PrimitiveRenderer::segmentsIntersect (main.cpp lines 261-273): proper
crossing via four strict orientation sign tests; a zero cross product never
counts as a crossing. -/
def segmentsIntersect (a1 a2 b1 b2 : Vec2) : Prop :=
  ((cross a1 a2 b1 > 0 ∧ cross a1 a2 b2 < 0) ∨
    (cross a1 a2 b1 < 0 ∧ cross a1 a2 b2 > 0)) ∧
  ((cross b1 b2 a1 > 0 ∧ cross b1 b2 a2 < 0) ∨
    (cross b1 b2 a1 < 0 ∧ cross b1 b2 a2 > 0))

instance (a1 a2 b1 b2 : Vec2) : Decidable (segmentsIntersect a1 a2 b1 b2) := by
  unfold segmentsIntersect
  infer_instance

/-- Vertex access pts[k] of drawPolygon; every index used by the code is
reduced modulo the vertex count before the access, so the default value is
never read. -/
def vtx (pts : List Vec2) (k : ℕ) : Vec2 :=
  pts.getD k default

/-- Validation loop of drawPolygon (main.cpp lines 280-294): some pair of
edges (i, i+1), (j, j+1) with i < j that are not cyclically adjacent
properly crosses.  The C++ double loop over i and j = i+1..n-1 returns
false exactly when this holds. -/
def selfIntersecting (pts : List Vec2) : Prop :=
  ∃ i < pts.length, ∃ j < pts.length, i < j ∧
    (j + 1) % pts.length ≠ i ∧ (i + 1) % pts.length ≠ j ∧
    segmentsIntersect (vtx pts i) (vtx pts ((i + 1) % pts.length))
      (vtx pts j) (vtx pts ((j + 1) % pts.length))

instance (pts : List Vec2) : Decidable (selfIntersecting pts) := by
  unfold selfIntersecting
  infer_instance

/-- PrimitiveRenderer::drawPolygon (main.cpp lines 275-302): reject fewer
than 3 vertices or a self-intersecting vertex loop without drawing; on
success rasterize the n boundary edges in vertex order, the last edge
wrapping back to the first vertex.  The returned list collects the pixels
written through the line rasterizer, in order. -/
def drawPolygon (pts : List Vec2) : Bool × List (ℤ × ℤ) :=
  if pts.length < 3 then (false, [])
  else if selfIntersecting pts then (false, [])
  else
    (true, (List.range pts.length).flatMap fun i =>
      drawLineIncremental (vtx pts i) (vtx pts ((i + 1) % pts.length)))

/-- Eight emissions of one drawCircle sample (main.cpp lines 203-218), for
a sample offset (x, y) relative to the center (cx, cy), in the order of the
px and py arrays. -/
def emit8 (cx cy x y : ℚ) : List (ℤ × ℤ) :=
  [(roundQ (cx + x), roundQ (cy + y)), (roundQ (cx + y), roundQ (cy + x)),
   (roundQ (cx - x), roundQ (cy + y)), (roundQ (cx - y), roundQ (cy + x)),
   (roundQ (cx - x), roundQ (cy - y)), (roundQ (cx - y), roundQ (cy - x)),
   (roundQ (cx + x), roundQ (cy - y)), (roundQ (cx + y), roundQ (cy - x))]

/-- PrimitiveRenderer::drawCircle (main.cpp lines 188-220) modelled over an
explicit list of sample offsets standing for (R cos alpha_i, R sin alpha_i)
with alpha_i = (pi/4) * i / steps, i = 0..steps.  The trigonometric sample
values are computed in floating point and are not embeddable exactly, but
every float value is a rational, so quantifying over all rational sample
lists covers every actual execution; the per-sample eightfold emission is
modelled exactly. -/
def drawCirclePoints (cx cy : ℚ) (samples : List (ℚ × ℚ)) : List (ℤ × ℤ) :=
  samples.flatMap fun s => emit8 cx cy s.1 s.2

/-- drawCircle specialized to radius R = 0: every sample offset is exactly
(0 * cos alpha_i, 0 * sin alpha_i) = (0, 0), also in floating point, since
multiplying 0.0f by any finite float yields exactly 0.0f and cos/sin of the
sampled angles are finite.  The loop runs steps + 1 times. -/
def drawCircleZeroR (cx cy : ℚ) (steps : ℕ) : List (ℤ × ℤ) :=
  drawCirclePoints cx cy (List.replicate (steps + 1) (0, 0))

/-- Eight octant reflections of the pixel p around an integer center:
negate and swap the offsets of p from the center in all combinations, in
the emission order of drawCircle. -/
def octantReflections (cx cy : ℤ) (p : ℤ × ℤ) : List (ℤ × ℤ) :=
  let u := p.1 - cx
  let v := p.2 - cy
  [(cx + u, cy + v), (cx + v, cy + u), (cx - u, cy + v), (cx - v, cy + u),
   (cx - u, cy - v), (cx - v, cy - u), (cx + u, cy - v), (cx + v, cy - u)]

/-- Eight octant reflections of an exact point around a rational center,
used to state what circle symmetry would require at a non-integral center. -/
def octantReflectionsQ (cx cy : ℚ) (p : ℚ × ℚ) : List (ℚ × ℚ) :=
  let u := p.1 - cx
  let v := p.2 - cy
  [(cx + u, cy + v), (cx + v, cy + u), (cx - u, cy + v), (cx - v, cy + u),
   (cx - u, cy - v), (cx - v, cy - u), (cx + u, cy - v), (cx + v, cy - u)]

lemma fillLoop_zero (keep : Color → Bool) (fc : Color) (img : Image)
    (q : List (ℤ × ℤ)) : fillLoop keep fc 0 img q = img := rfl

lemma fillLoop_nil (keep : Color → Bool) (fc : Color) (fuel : ℕ) (img : Image) :
    fillLoop keep fc (fuel + 1) img [] = img := rfl

lemma fillLoop_cons (keep : Color → Bool) (fc : Color) (fuel : ℕ) (img : Image)
    (p : ℤ × ℤ) (q : List (ℤ × ℤ)) :
    fillLoop keep fc (fuel + 1) img (p :: q) =
      if inB img p then
        if keep (img.pix p.1 p.2) then
          fillLoop keep fc fuel (setPixel img p.1 p.2 fc) (q ++ neighbors p)
        else fillLoop keep fc fuel img q
      else fillLoop keep fc fuel img q := rfl

lemma setPixel_width (img : Image) (x y : ℤ) (c : Color) :
    (setPixel img x y c).width = img.width := rfl

lemma setPixel_height (img : Image) (x y : ℤ) (c : Color) :
    (setPixel img x y c).height = img.height := rfl

lemma setPixel_pix (img : Image) (x y : ℤ) (c : Color) (u v : ℤ) :
    (setPixel img x y c).pix u v = if u = x ∧ v = y then c else img.pix u v := rfl

lemma inB_setPixel (img : Image) (x y : ℤ) (c : Color) (p : ℤ × ℤ) :
    inB (setPixel img x y c) p ↔ inB img p := Iff.rfl

lemma fillLoop_width (keep : Color → Bool) (fc : Color) :
    ∀ (fuel : ℕ) (img : Image) (q : List (ℤ × ℤ)),
      (fillLoop keep fc fuel img q).width = img.width := by
  intro fuel
  induction fuel with
  | zero => intro img q; rfl
  | succ n ih =>
    intro img q
    cases q with
    | nil => rfl
    | cons p t =>
      rw [fillLoop_cons]
      split_ifs <;> simp [ih, setPixel_width]

lemma fillLoop_height (keep : Color → Bool) (fc : Color) :
    ∀ (fuel : ℕ) (img : Image) (q : List (ℤ × ℤ)),
      (fillLoop keep fc fuel img q).height = img.height := by
  intro fuel
  induction fuel with
  | zero => intro img q; rfl
  | succ n ih =>
    intro img q
    cases q with
    | nil => rfl
    | cons p t =>
      rw [fillLoop_cons]
      split_ifs <;> simp [ih, setPixel_height]

lemma fillLoop_pix_cases (keep : Color → Bool) (fc : Color) :
    ∀ (fuel : ℕ) (img : Image) (q : List (ℤ × ℤ)) (u v : ℤ),
      (fillLoop keep fc fuel img q).pix u v = img.pix u v ∨
        (fillLoop keep fc fuel img q).pix u v = fc := by
  intro fuel
  induction fuel with
  | zero => intro img q u v; exact Or.inl rfl
  | succ n ih =>
    intro img q u v
    cases q with
    | nil => exact Or.inl rfl
    | cons p t =>
      rw [fillLoop_cons]
      split_ifs with h1 h2
      · rcases ih (setPixel img p.1 p.2 fc) (t ++ neighbors p) u v with h | h
        · rw [h, setPixel_pix]
          split_ifs with h3
          · exact Or.inr rfl
          · exact Or.inl rfl
        · exact Or.inr h
      · exact ih img t u v
      · exact ih img t u v

lemma fillLoop_pix_fc (keep : Color → Bool) (fc : Color) :
    ∀ (fuel : ℕ) (img : Image) (q : List (ℤ × ℤ)) (u v : ℤ),
      img.pix u v = fc → (fillLoop keep fc fuel img q).pix u v = fc := by
  intro fuel img q u v h
  rcases fillLoop_pix_cases keep fc fuel img q u v with h2 | h2
  · rw [h2, h]
  · exact h2

/-- Claim C10: boundaryFill and floodFill only ever write the fill color:
after either call every pixel either keeps its original color or holds
exactly fillColor. -/
theorem fills_write_only_fillColor (img : Image) (x y : ℤ) (fc bc : Color)
    (u v : ℤ) :
    ((boundaryFill img x y fc bc).pix u v = img.pix u v ∨
      (boundaryFill img x y fc bc).pix u v = fc) ∧
    ((floodFill img x y fc).pix u v = img.pix u v ∨
      (floodFill img x y fc).pix u v = fc) := by
  constructor
  · unfold boundaryFill
    split_ifs with h1 h2
    · exact Or.inl rfl
    · exact fillLoop_pix_cases _ _ _ _ _ _ _
    · exact Or.inl rfl
  · unfold floodFill
    split_ifs with h1 h2
    · exact Or.inl rfl
    · exact fillLoop_pix_cases _ _ _ _ _ _ _
    · exact Or.inl rfl

lemma boundaryFill_noop (img : Image) (x y : ℤ) (fc bc : Color)
    (h : ¬ inB img (x, y) ∨ img.pix x y = bc ∨ img.pix x y = fc) :
    boundaryFill img x y fc bc = img := by
  unfold boundaryFill
  split_ifs with h1 h2
  · rfl
  · rcases h with h | h
    · exact absurd h1 h
    · exact absurd h h2
  · rfl

lemma floodFill_noop (img : Image) (x y : ℤ) (fc : Color)
    (h : ¬ inB img (x, y) ∨ img.pix x y = fc) :
    floodFill img x y fc = img := by
  unfold floodFill
  split_ifs with h1 h2
  · rfl
  · rcases h with h | h
    · exact absurd h1 h
    · exact absurd h h2
  · rfl

/-- Claim C9: an out-of-bounds seed, or a seed pixel already holding the
boundary or fill color (boundaryFill) or the fill color (floodFill), leaves
the grid entirely unchanged, and the bounds-checked model never reads or
writes outside the grid. -/
theorem fills_seed_noop (img : Image) (x y : ℤ) (fc bc : Color) :
    (¬ inB img (x, y) ∨ img.pix x y = bc ∨ img.pix x y = fc →
      boundaryFill img x y fc bc = img) ∧
    (¬ inB img (x, y) ∨ img.pix x y = fc → floodFill img x y fc = img) :=
  ⟨boundaryFill_noop img x y fc bc, floodFill_noop img x y fc⟩

lemma boundaryFill_pix_seed (img : Image) (x y : ℤ) (fc bc : Color)
    (h1 : inB img (x, y)) (h2 : ¬(img.pix x y = bc ∨ img.pix x y = fc)) :
    (boundaryFill img x y fc bc).pix x y = fc := by
  unfold boundaryFill
  rw [if_pos h1, if_neg h2]
  show (fillLoop (keepB fc bc) fc (5 * (eligSet (keepB fc bc) img).card + 1)
    img [(x, y)]).pix x y = fc
  rw [fillLoop_cons]
  rw [if_pos h1, if_pos (by simp [keepB, h2])]
  exact fillLoop_pix_fc _ _ _ _ _ _ _ (by simp [setPixel_pix])

lemma floodFill_pix_seed (img : Image) (x y : ℤ) (fc : Color)
    (h1 : inB img (x, y)) (h2 : ¬ img.pix x y = fc) :
    (floodFill img x y fc).pix x y = fc := by
  unfold floodFill
  rw [if_pos h1, if_neg h2]
  show (fillLoop (keepF fc (img.pix x y)) fc
    (5 * (eligSet (keepF fc (img.pix x y)) img).card + 1) img [(x, y)]).pix x y = fc
  rw [fillLoop_cons]
  rw [if_pos h1, if_pos (by simp [keepF, h2])]
  exact fillLoop_pix_fc _ _ _ _ _ _ _ (by simp [setPixel_pix])

/-- Claim C5: running boundaryFill or floodFill a second time with the
identical arguments changes nothing: after a successful first run the seed
pixel holds fillColor, so the second run hits the early-return guard, and
after a no-op first run the second run is the same no-op. -/
theorem fills_idempotent (img : Image) (x y : ℤ) (fc bc : Color) :
    boundaryFill (boundaryFill img x y fc bc) x y fc bc =
      boundaryFill img x y fc bc ∧
    floodFill (floodFill img x y fc) x y fc = floodFill img x y fc := by
  constructor
  · by_cases h1 : inB img (x, y)
    · by_cases h2 : img.pix x y = bc ∨ img.pix x y = fc
      · rw [boundaryFill_noop img x y fc bc (Or.inr h2)]
        exact boundaryFill_noop img x y fc bc (Or.inr h2)
      · exact boundaryFill_noop _ x y fc bc
          (Or.inr (Or.inr (boundaryFill_pix_seed img x y fc bc h1 h2)))
    · rw [boundaryFill_noop img x y fc bc (Or.inl h1)]
      exact boundaryFill_noop img x y fc bc (Or.inl h1)
  · by_cases h1 : inB img (x, y)
    · by_cases h2 : img.pix x y = fc
      · rw [floodFill_noop img x y fc (Or.inr h2)]
        exact floodFill_noop img x y fc (Or.inr h2)
      · exact floodFill_noop _ x y fc
          (Or.inr (floodFill_pix_seed img x y fc h1 h2))
    · rw [floodFill_noop img x y fc (Or.inl h1)]
      exact floodFill_noop img x y fc (Or.inl h1)

lemma keepB_fc (fc bc : Color) : keepB fc bc fc = false := by
  simp [keepB]

lemma keepF_fc (fc bg : Color) : keepF fc bg fc = false := by
  simp [keepF]

lemma eligSet_setPixel (keep : Color → Bool) (fc : Color) (hk : keep fc = false)
    (img : Image) (x y : ℤ) (hin : inB img (x, y)) :
    eligSet keep (setPixel img x y fc) =
      (eligSet keep img).erase (x.toNat, y.toNat) := by
  obtain ⟨hx0, hxw, hy0, hyh⟩ := hin
  ext q
  simp only [eligSet, Finset.mem_erase, Finset.mem_filter, Finset.mem_product,
    Finset.mem_range, setPixel_pix, setPixel_width, setPixel_height]
  by_cases hq : (q.1 : ℤ) = x ∧ (q.2 : ℤ) = y
  · have hqe : q = (x.toNat, y.toNat) := by
      obtain ⟨hq1, hq2⟩ := hq
      cases q
      simp only [Prod.mk.injEq]
      omega
    rw [if_pos hq, hk]
    simp [hqe]
  · rw [if_neg hq]
    have hne : q ≠ (x.toNat, y.toNat) := by
      intro hcon
      apply hq
      cases q
      simp only [Prod.mk.injEq] at hcon
      constructor <;> omega
    simp [hne]

lemma eligSet_mem (keep : Color → Bool) (img : Image) (x y : ℤ)
    (hin : inB img (x, y)) (hkeep : keep (img.pix x y) = true) :
    (x.toNat, y.toNat) ∈ eligSet keep img := by
  obtain ⟨hx0, hxw, hy0, hyh⟩ := hin
  simp only [eligSet, Finset.mem_filter, Finset.mem_product, Finset.mem_range]
  refine ⟨⟨by omega, by omega⟩, ?_⟩
  rw [show ((x.toNat : ℤ)) = x by omega, show ((y.toNat : ℤ)) = y by omega]
  exact hkeep

lemma eligSet_card_step (keep : Color → Bool) (fc : Color) (hk : keep fc = false)
    (img : Image) (x y : ℤ) (hin : inB img (x, y))
    (hkeep : keep (img.pix x y) = true) :
    (eligSet keep (setPixel img x y fc)).card + 1 = (eligSet keep img).card := by
  rw [eligSet_setPixel keep fc hk img x y hin]
  have hmem := eligSet_mem keep img x y hin hkeep
  rw [Finset.card_erase_of_mem hmem]
  have hpos : 0 < (eligSet keep img).card := Finset.card_pos.mpr ⟨_, hmem⟩
  omega

lemma fillLoop_succ_eq (keep : Color → Bool) (fc : Color) (hk : keep fc = false) :
    ∀ (fuel : ℕ) (img : Image) (q : List (ℤ × ℤ)),
      5 * (eligSet keep img).card + q.length ≤ fuel →
      fillLoop keep fc (fuel + 1) img q = fillLoop keep fc fuel img q := by
  intro fuel
  induction fuel using Nat.strong_induction_on with
  | _ fuel ih =>
    intro img q hle
    cases q with
    | nil => cases fuel <;> rfl
    | cons p t =>
      have hlen : t.length + 1 ≤ fuel := by
        have := List.length_cons p t
        omega
      obtain ⟨f, rfl⟩ : ∃ f, fuel = f + 1 := ⟨fuel - 1, by omega⟩
      rw [fillLoop_cons, fillLoop_cons]
      split_ifs with hin hkeep
      · have hp : p = (p.1, p.2) := rfl
        have hcard := eligSet_card_step keep fc hk img p.1 p.2 (hp ▸ hin) hkeep
        apply ih f (by omega)
        have hq : (t ++ neighbors p).length = t.length + 4 := by
          simp [neighbors]
        rw [hq]
        simp only [List.length_cons] at hle
        omega
      · apply ih f (by omega)
        simp only [List.length_cons] at hle
        omega
      · apply ih f (by omega)
        simp only [List.length_cons] at hle
        omega

lemma fillLoop_fuel_eq (keep : Color → Bool) (fc : Color) (hk : keep fc = false)
    (n : ℕ) (img : Image) (q : List (ℤ × ℤ))
    (hm : 5 * (eligSet keep img).card + q.length ≤ n) :
    ∀ fuel, n ≤ fuel → fillLoop keep fc fuel img q = fillLoop keep fc n img q := by
  intro fuel hf
  induction fuel, hf using Nat.le_induction with
  | base => rfl
  | succ m hmn ih =>
    rw [fillLoop_succ_eq keep fc hk m img q (le_trans hm hmn), ih]

/-- Claim C4: both fills terminate after finitely many queue pops.  The BFS
loop is modelled with a pop budget; with the budget 5 * card(eligSet) + 1
that the top-level wrappers pass, the loop has already drained the queue:
giving it any larger budget computes the same image, because each pop
removes one queue entry and only a recoloring pop, which strictly shrinks
the set of still-recolorable pixels of the finite grid, adds four. -/
theorem fills_terminate (img : Image) (x y : ℤ) (fc bc : Color) (fuel : ℕ) :
    (fillFuel (keepB fc bc) img ≤ fuel →
      fillLoop (keepB fc bc) fc fuel img [(x, y)] =
        fillLoop (keepB fc bc) fc (fillFuel (keepB fc bc) img) img [(x, y)]) ∧
    (fillFuel (keepF fc (img.pix x y)) img ≤ fuel →
      fillLoop (keepF fc (img.pix x y)) fc fuel img [(x, y)] =
        fillLoop (keepF fc (img.pix x y)) fc
          (fillFuel (keepF fc (img.pix x y)) img) img [(x, y)]) := by
  constructor
  · intro hf
    exact fillLoop_fuel_eq (keepB fc bc) fc (keepB_fc fc bc) _ img [(x, y)]
      (by simp [fillFuel]) fuel hf
  · intro hf
    exact fillLoop_fuel_eq (keepF fc (img.pix x y)) fc (keepF_fc fc (img.pix x y))
      _ img [(x, y)] (by simp [fillFuel]) fuel hf

/-- White, as used for demo backgrounds (sf::Color::White). -/
def cWhite : Color := ⟨255, 255, 255, 255⟩

/-- Black, the demo boundary color (sf::Color::Black). -/
def cBlack : Color := ⟨0, 0, 0, 255⟩

/-- Light green, the demo boundary-fill color sf::Color(200, 255, 200). -/
def cGreen : Color := ⟨200, 255, 200, 255⟩

/-- One-by-one all-white grid used as a concrete witness input. -/
def img1 : Image := ⟨1, 1, fun _ _ => cWhite⟩

/-- Witness for the no-op claim at a concrete out-of-bounds seed. -/
theorem fills_seed_noop_witness :
    (¬ inB img1 ((-1 : ℤ), (0 : ℤ)) ∨ img1.pix (-1) 0 = cBlack ∨
      img1.pix (-1) 0 = cGreen) ∧
    boundaryFill img1 (-1) 0 cGreen cBlack = img1 ∧
    floodFill img1 (-1) 0 cGreen = img1 :=
  ⟨Or.inl (by decide),
    (fills_seed_noop img1 (-1) 0 cGreen cBlack).1 (Or.inl (by decide)),
    (fills_seed_noop img1 (-1) 0 cGreen cBlack).2 (Or.inl (by decide))⟩

/-- Witness for the termination claim on a concrete one-pixel grid. -/
theorem fills_terminate_witness :
    fillFuel (keepB cGreen cBlack) img1 ≤ 6 ∧
    fillFuel (keepF cGreen (img1.pix 0 0)) img1 ≤ 6 ∧
    fillLoop (keepB cGreen cBlack) cGreen 6 img1 [(0, 0)] =
      fillLoop (keepB cGreen cBlack) cGreen
        (fillFuel (keepB cGreen cBlack) img1) img1 [(0, 0)] ∧
    fillLoop (keepF cGreen (img1.pix 0 0)) cGreen 6 img1 [(0, 0)] =
      fillLoop (keepF cGreen (img1.pix 0 0)) cGreen
        (fillFuel (keepF cGreen (img1.pix 0 0)) img1) img1 [(0, 0)] :=
  ⟨by decide, by decide,
    (fills_terminate img1 0 0 cGreen cBlack 6).1 (by decide),
    (fills_terminate img1 0 0 cGreen cBlack 6).2 (by decide)⟩

/-- Claim C2: drawPolygon returns false and writes no pixel exactly when
there are fewer than 3 vertices or two non-adjacent edges properly cross
(strictly opposite orientation signs on both segments; zero cross products
never count); otherwise it returns true and draws exactly the n boundary
edges through the line rasterizer, in vertex order, the last edge wrapping
back to the first vertex. -/
theorem drawPolygon_spec (pts : List Vec2) :
    (((drawPolygon pts).1 = false ∧ (drawPolygon pts).2 = []) ↔
      (pts.length < 3 ∨
        ∃ i < pts.length, ∃ j < pts.length, i < j ∧
          (j + 1) % pts.length ≠ i ∧ (i + 1) % pts.length ≠ j ∧
          segmentsIntersect (vtx pts i) (vtx pts ((i + 1) % pts.length))
            (vtx pts j) (vtx pts ((j + 1) % pts.length)))) ∧
    ((drawPolygon pts).1 = true →
      (drawPolygon pts).2 = (List.range pts.length).flatMap fun i =>
        drawLineIncremental (vtx pts i) (vtx pts ((i + 1) % pts.length))) := by
  unfold drawPolygon
  split_ifs with h1 h2
  · exact ⟨Iff.intro (fun _ => Or.inl h1) (fun _ => ⟨rfl, rfl⟩),
      fun ht => absurd ht (by simp)⟩
  · unfold selfIntersecting at h2
    exact ⟨Iff.intro (fun _ => Or.inr h2) (fun _ => ⟨rfl, rfl⟩),
      fun ht => absurd ht (by simp)⟩
  · refine ⟨Iff.intro (fun hc => absurd hc.1 (by simp)) (fun h => ?_), fun _ => rfl⟩
    rcases h with h | h
    · exact absurd h h1
    · unfold selfIntersecting at h2
      exact absurd h h2

/-- Convex square from the spec's polygon-acceptance test property. -/
def pts4 : List Vec2 := [⟨0, 0⟩, ⟨10, 0⟩, ⟨10, 10⟩, ⟨0, 10⟩]

lemma pts4_success : (drawPolygon pts4).1 = true := by
  unfold drawPolygon
  rw [if_neg (by norm_num [pts4]), if_neg ?noCross]
  case noCross =>
    intro h
    unfold selfIntersecting at h
    obtain ⟨i, hi, j, hj, hij, ha1, ha2, hseg⟩ := h
    have hlen : pts4.length = 4 := rfl
    rw [hlen] at hi hj ha1 ha2 hseg
    interval_cases i <;> interval_cases j <;>
      first
        | omega
        | norm_num [segmentsIntersect, cross, vtx, pts4, List.getD] at hseg

/-- Witness for the polygon claim: the convex square is accepted and its
four boundary edges are exactly what is rasterized. -/
theorem drawPolygon_spec_witness :
    (drawPolygon pts4).1 = true ∧
    (drawPolygon pts4).2 = (List.range pts4.length).flatMap fun i =>
      drawLineIncremental (vtx pts4 i) (vtx pts4 ((i + 1) % pts4.length)) :=
  ⟨pts4_success, (drawPolygon_spec pts4).2 pts4_success⟩

lemma roundQ_intCast (n : ℤ) : roundQ (n : ℚ) = n := by
  unfold roundQ
  by_cases h : (0 : ℚ) ≤ (n : ℚ)
  · rw [if_pos h, add_comm, Int.floor_add_int]
    norm_num
  · rw [if_neg h]
    have hn : -(n : ℚ) = ((-n : ℤ) : ℚ) := by push_cast; ring
    rw [hn, add_comm, Int.floor_add_int]
    norm_num

lemma dLI_eval_ns (a b : Vec2) (hne : ¬(a.x = b.x ∧ a.y = b.y))
    (hsteep : ¬ |b.y - a.y| > |b.x - a.x|) (hswap : ¬ b.x < a.x) :
    drawLineIncremental a b = lineWalk false a.x a.y b.x b.y := by
  simp [drawLineIncremental, hne, hsteep, hswap]

lemma dLI_eval_ns_swap (a b : Vec2) (hne : ¬(a.x = b.x ∧ a.y = b.y))
    (hsteep : ¬ |b.y - a.y| > |b.x - a.x|) (hswap : b.x < a.x) :
    drawLineIncremental a b = lineWalk false b.x b.y a.x a.y := by
  simp [drawLineIncremental, hne, hsteep, hswap]

lemma dLI_eval_st (a b : Vec2) (hne : ¬(a.x = b.x ∧ a.y = b.y))
    (hsteep : |b.y - a.y| > |b.x - a.x|) (hswap : ¬ b.y < a.y) :
    drawLineIncremental a b = lineWalk true a.y a.x b.y b.x := by
  simp [drawLineIncremental, hne, hsteep, hswap]

lemma dLI_eval_st_swap (a b : Vec2) (hne : ¬(a.x = b.x ∧ a.y = b.y))
    (hsteep : |b.y - a.y| > |b.x - a.x|) (hswap : b.y < a.y) :
    drawLineIncremental a b = lineWalk true b.y b.x a.y a.x := by
  simp [drawLineIncremental, hne, hsteep, hswap]

lemma lineWalk_elem (steep : Bool) (x0 y0 x1 y1 : ℚ) (i : ℕ)
    (hi : i < (roundQ x1 - roundQ x0 + 1).toNat) :
    (if steep then
        (roundQ (y0 + (i : ℚ) *
          (if x1 - x0 = 0 then 0 else (y1 - y0) / (x1 - x0))), roundQ x0 + (i : ℤ))
      else
        (roundQ x0 + (i : ℤ), roundQ (y0 + (i : ℚ) *
          (if x1 - x0 = 0 then 0 else (y1 - y0) / (x1 - x0))))) ∈
      lineWalk steep x0 y0 x1 y1 := by
  unfold lineWalk
  exact List.mem_map.mpr ⟨i, List.mem_range.mpr hi, by cases steep <;> rfl⟩

lemma lineWalk_int_mem (steep : Bool) (x0 y0 x1 y1 : ℤ) (hlt : x0 < x1) :
    (if steep then ((y0, x0) : ℤ × ℤ) else (x0, y0)) ∈
      lineWalk steep (x0 : ℚ) (y0 : ℚ) (x1 : ℚ) (y1 : ℚ) ∧
    (if steep then ((y1, x1) : ℤ × ℤ) else (x1, y1)) ∈
      lineWalk steep (x0 : ℚ) (y0 : ℚ) (x1 : ℚ) (y1 : ℚ) := by
  have hdx : (x1 : ℚ) - (x0 : ℚ) ≠ 0 :=
    sub_ne_zero.mpr (by exact_mod_cast hlt.ne')
  have hlen : (roundQ (x1 : ℚ) - roundQ (x0 : ℚ) + 1).toNat = (x1 - x0 + 1).toNat := by
    rw [roundQ_intCast, roundQ_intCast]
  constructor
  · have h0 := lineWalk_elem steep (x0 : ℚ) (y0 : ℚ) (x1 : ℚ) (y1 : ℚ) 0
      (by rw [hlen]; omega)
    have he : (if steep then
        (roundQ ((y0 : ℚ) + ((0 : ℕ) : ℚ) *
          (if (x1 : ℚ) - (x0 : ℚ) = 0 then 0
            else ((y1 : ℚ) - (y0 : ℚ)) / ((x1 : ℚ) - (x0 : ℚ)))),
          roundQ (x0 : ℚ) + ((0 : ℕ) : ℤ))
      else
        (roundQ (x0 : ℚ) + ((0 : ℕ) : ℤ),
          roundQ ((y0 : ℚ) + ((0 : ℕ) : ℚ) *
            (if (x1 : ℚ) - (x0 : ℚ) = 0 then 0
              else ((y1 : ℚ) - (y0 : ℚ)) / ((x1 : ℚ) - (x0 : ℚ)))))) =
        (if steep then ((y0, x0) : ℤ × ℤ) else (x0, y0)) := by
      cases steep <;> simp [roundQ_intCast]
    rwa [he] at h0
  · set i : ℕ := (x1 - x0).toNat with hidef
    have h1 := lineWalk_elem steep (x0 : ℚ) (y0 : ℚ) (x1 : ℚ) (y1 : ℚ) i
      (by rw [hlen]; omega)
    have hcastQ : ((i : ℕ) : ℚ) = (x1 : ℚ) - (x0 : ℚ) := by
      have h1 : ((i : ℕ) : ℤ) = x1 - x0 := by omega
      exact_mod_cast congrArg (fun z : ℤ => (z : ℚ)) h1
    have hcastZ : roundQ (x0 : ℚ) + ((i : ℕ) : ℤ) = x1 := by
      rw [roundQ_intCast]
      omega
    have hyv : roundQ ((y0 : ℚ) + ((i : ℕ) : ℚ) *
        (((y1 : ℚ) - (y0 : ℚ)) / ((x1 : ℚ) - (x0 : ℚ)))) = y1 := by
      rw [hcastQ]
      have harith : (y0 : ℚ) + ((x1 : ℚ) - (x0 : ℚ)) *
          (((y1 : ℚ) - (y0 : ℚ)) / ((x1 : ℚ) - (x0 : ℚ))) = ((y1 : ℤ) : ℚ) := by
        field_simp
      rw [harith, roundQ_intCast]
    have he : (if steep then
        (roundQ ((y0 : ℚ) + ((i : ℕ) : ℚ) *
          (if (x1 : ℚ) - (x0 : ℚ) = 0 then 0
            else ((y1 : ℚ) - (y0 : ℚ)) / ((x1 : ℚ) - (x0 : ℚ)))),
          roundQ (x0 : ℚ) + ((i : ℕ) : ℤ))
      else
        (roundQ (x0 : ℚ) + ((i : ℕ) : ℤ),
          roundQ ((y0 : ℚ) + ((i : ℕ) : ℚ) *
            (if (x1 : ℚ) - (x0 : ℚ) = 0 then 0
              else ((y1 : ℚ) - (y0 : ℚ)) / ((x1 : ℚ) - (x0 : ℚ)))))) =
        (if steep then ((y1, x1) : ℤ × ℤ) else (x1, y1)) := by
      cases steep <;> simp [hdx, hyv, hcastZ]
    rwa [he] at h1

/-- Claim C6 (amended to integer-coordinate endpoints): for two distinct
positions with integer coordinates, the emitted pixel list contains the
rounded image of both endpoints. -/
theorem drawLineIncremental_int_endpoints (ax ay bx bY : ℤ)
    (h : ((ax, ay) : ℤ × ℤ) ≠ (bx, bY)) :
    (roundQ ((ax : ℚ)), roundQ ((ay : ℚ))) ∈
      drawLineIncremental ⟨(ax : ℚ), (ay : ℚ)⟩ ⟨(bx : ℚ), (bY : ℚ)⟩ ∧
    (roundQ ((bx : ℚ)), roundQ ((bY : ℚ))) ∈
      drawLineIncremental ⟨(ax : ℚ), (ay : ℚ)⟩ ⟨(bx : ℚ), (bY : ℚ)⟩ := by
  set a : Vec2 := ⟨(ax : ℚ), (ay : ℚ)⟩ with ha
  set b : Vec2 := ⟨(bx : ℚ), (bY : ℚ)⟩ with hb
  have hne : ¬(a.x = b.x ∧ a.y = b.y) := by
    rintro ⟨h1, h2⟩
    apply h
    rw [ha, hb] at h1 h2
    dsimp only at h1 h2
    have : ax = bx := by exact_mod_cast h1
    have : ay = bY := by exact_mod_cast h2
    simp_all
  rw [roundQ_intCast, roundQ_intCast, roundQ_intCast, roundQ_intCast]
  by_cases hsteep : |b.y - a.y| > |b.x - a.x|
  · by_cases hswap : b.y < a.y
    · rw [dLI_eval_st_swap a b hne hsteep hswap]
      have hlt : bY < ay := by
        rw [ha, hb] at hswap
        dsimp only at hswap
        exact_mod_cast hswap
      have hm := lineWalk_int_mem true bY bx ay ax hlt
      simp only [if_pos rfl, Bool.true_eq] at hm
      rw [ha, hb]
      dsimp only
      exact ⟨(by simpa using hm.2), (by simpa using hm.1)⟩
    · have hlt : ay < bY := by
        have hnea : a.y ≠ b.y := by
          intro hcon
          rw [hcon] at hsteep
          simp at hsteep
          have := abs_nonneg (b.x - a.x)
          linarith
        have : (ay : ℚ) < bY := by
          rw [ha, hb] at hswap hnea
          dsimp only at hswap hnea
          rcases lt_or_ge (ay : ℚ) (bY : ℚ) with hq | hq
          · exact hq
          · exact absurd (lt_of_le_of_ne hq (Ne.symm hnea)) hswap
        exact_mod_cast this
      rw [dLI_eval_st a b hne hsteep hswap]
      have hm := lineWalk_int_mem true ay ax bY bx hlt
      simp only [if_pos rfl, Bool.true_eq] at hm
      rw [ha, hb]
      dsimp only
      exact ⟨(by simpa using hm.1), (by simpa using hm.2)⟩
  · by_cases hswap : b.x < a.x
    · rw [dLI_eval_ns_swap a b hne hsteep hswap]
      have hlt : bx < ax := by
        rw [ha, hb] at hswap
        dsimp only at hswap
        exact_mod_cast hswap
      have hm := lineWalk_int_mem false bx bY ax ay hlt
      simp only [Bool.false_eq_true, if_neg] at hm
      rw [ha, hb]
      dsimp only
      exact ⟨(by simpa using hm.2), (by simpa using hm.1)⟩
    · have hlt : ax < bx := by
        have hnea : a.x ≠ b.x := by
          intro hcon
          apply hne
          refine ⟨hcon, ?_⟩
          rw [hcon] at hsteep
          simp at hsteep
          have h0 : |b.y - a.y| = 0 := le_antisymm (by simpa using hsteep) (abs_nonneg _)
          have := abs_eq_zero.mp h0
          linarith [sub_eq_zero.mp this]
        have : (ax : ℚ) < bx := by
          rw [ha, hb] at hswap hnea
          dsimp only at hswap hnea
          rcases lt_or_ge (ax : ℚ) (bx : ℚ) with hq | hq
          · exact hq
          · exact absurd (lt_of_le_of_ne hq (Ne.symm hnea)) hswap
        exact_mod_cast this
      rw [dLI_eval_ns a b hne hsteep hswap]
      have hm := lineWalk_int_mem false ax ay bx bY hlt
      simp only [Bool.false_eq_true, if_neg] at hm
      rw [ha, hb]
      dsimp only
      exact ⟨(by simpa using hm.1), (by simpa using hm.2)⟩

/-- Witness for the integer-endpoint inclusion at a concrete slope-1/3
line from (0,0) to (3,1). -/
theorem drawLineIncremental_int_endpoints_witness :
    ((0, 0) : ℤ × ℤ) ≠ (3, 1) ∧
    (roundQ ((0 : ℚ)), roundQ ((0 : ℚ))) ∈
      drawLineIncremental ⟨((0 : ℤ) : ℚ), ((0 : ℤ) : ℚ)⟩ ⟨((3 : ℤ) : ℚ), ((1 : ℤ) : ℚ)⟩ ∧
    (roundQ ((3 : ℚ)), roundQ ((1 : ℚ))) ∈
      drawLineIncremental ⟨((0 : ℤ) : ℚ), ((0 : ℤ) : ℚ)⟩ ⟨((3 : ℤ) : ℚ), ((1 : ℤ) : ℚ)⟩ := by
  refine ⟨by decide, ?_, ?_⟩
  · have := (drawLineIncremental_int_endpoints 0 0 3 1 (by decide)).1
    simpa using this
  · have := (drawLineIncremental_int_endpoints 0 0 3 1 (by decide)).2
    simpa using this

/-- Claim C7: swapping the two endpoints leaves the emitted pixel set
unchanged; after the steepness and direction normalization both calls walk
the identical normalized segment, so the two emitted lists are equal. -/
theorem drawLineIncremental_symm (a b : Vec2) (p : ℤ × ℤ) :
    p ∈ drawLineIncremental a b ↔ p ∈ drawLineIncremental b a := by
  suffices h : drawLineIncremental a b = drawLineIncremental b a by rw [h]
  by_cases hab : a.x = b.x ∧ a.y = b.y
  · obtain ⟨h1, h2⟩ := hab
    simp [drawLineIncremental, h1, h2]
  · have hba : ¬(b.x = a.x ∧ b.y = a.y) := fun hcon => hab ⟨hcon.1.symm, hcon.2.symm⟩
    by_cases hsteep : |b.y - a.y| > |b.x - a.x|
    · have hsteep2 : |a.y - b.y| > |a.x - b.x| := by
        rwa [abs_sub_comm a.y, abs_sub_comm a.x]
      rcases lt_trichotomy a.y b.y with hlt | heq | hgt
      · rw [dLI_eval_st a b hab hsteep (not_lt.mpr hlt.le),
          dLI_eval_st_swap b a hba hsteep2 hlt]
      · exfalso
        rw [heq, sub_self, abs_zero] at hsteep
        exact absurd hsteep (not_lt.mpr (abs_nonneg _))
      · rw [dLI_eval_st_swap a b hab hsteep hgt,
          dLI_eval_st b a hba hsteep2 (not_lt.mpr hgt.le)]
    · have hsteep2 : ¬ |a.y - b.y| > |a.x - b.x| := by
        rwa [abs_sub_comm a.y, abs_sub_comm a.x]
      rcases lt_trichotomy a.x b.x with hlt | heq | hgt
      · rw [dLI_eval_ns a b hab hsteep (not_lt.mpr hlt.le),
          dLI_eval_ns_swap b a hba hsteep2 hlt]
      · exfalso
        apply hab
        refine ⟨heq, ?_⟩
        rw [heq, sub_self, abs_zero] at hsteep
        have h1 : b.y - a.y = 0 :=
          abs_eq_zero.mp (le_antisymm (not_lt.mp hsteep) (abs_nonneg _))
        exact (sub_eq_zero.mp h1).symm
      · rw [dLI_eval_ns_swap a b hab hsteep hgt,
          dLI_eval_ns b a hba hsteep2 (not_lt.mpr hgt.le)]

/-- Counterexample to the unrestricted endpoint-inclusion claim: for the
distinct endpoints a = (-0.49, 0) and b = (1, 0.74), the walk starts at
round(-0.49) = 0 with secondary coordinate 0 (the value at a.x, not at the
rounded start), so at the final column the accumulated value 74/149 rounds
to 0 and the pixel (round(b.x), round(b.y)) = (1, 1) is never emitted. -/
theorem line_endpoint_counterexample :
    ¬((⟨-(49/100 : ℚ), 0⟩ : Vec2) = ⟨1, 74/100⟩) ∧
    roundQ ((1 : ℚ)) = 1 ∧
    roundQ ((74/100 : ℚ)) = 1 ∧
    (1, 1) ∉ drawLineIncremental ⟨-(49/100 : ℚ), 0⟩ ⟨1, 74/100⟩ := by
  refine ⟨?_, by norm_num [roundQ], by norm_num [roundQ], ?_⟩
  · intro h
    have hx : (-(49/100 : ℚ)) = 1 := congrArg Vec2.x h
    norm_num at hx
  · have heval : drawLineIncremental ⟨-(49/100 : ℚ), 0⟩ ⟨1, 74/100⟩ =
        [(0, 0), (1, 0)] := by
      rw [dLI_eval_ns _ _ (fun hcon => by have := hcon.1; norm_num at this)
        (by norm_num [abs_of_nonneg]) (by norm_num)]
      have hx0 : roundQ (-(49/100) : ℚ) = 0 := by norm_num [roundQ]
      have hx1 : roundQ (1 : ℚ) = 1 := by norm_num [roundQ]
      simp only [lineWalk, hx0, hx1]
      norm_num [List.range_succ]
      rw [show Int.toNat 2 = 2 from rfl, show List.range 2 = [0, 1] from rfl]
      simp only [List.map_cons, List.map_nil, Prod.mk.injEq]
      norm_num [roundQ, Int.floor_eq_iff]
    rw [heval]
    decide

lemma octantReflectionsQ_shift (cx cy x y : ℚ) :
    octantReflectionsQ cx cy (cx + x, cy + y) =
      [(cx + x, cy + y), (cx + y, cy + x), (cx - x, cy + y), (cx - y, cy + x),
       (cx - x, cy - y), (cx - y, cy - x), (cx + x, cy - y), (cx + y, cy - x)] := by
  simp only [octantReflectionsQ, Prod.mk.injEq, List.cons.injEq, and_true]
  norm_num

/-- Claim C8 (amended): the octant symmetry drawCircle implements holds at
the exact sample points, before rounding: for every sample offset (x, y)
the rounded images of all 8 exact octant reflections of the sample point
(cx + x, cy + y) around the center are emitted.  At the pixel level the
claim fails, because rounding does not commute with reflection around the
center (see the counterexample). -/
theorem drawCircle_octant_symm (cx cy : ℚ) (samples : List (ℚ × ℚ))
    (s : ℚ × ℚ) (hs : s ∈ samples) :
    ∀ r ∈ octantReflectionsQ cx cy (cx + s.1, cy + s.2),
      (roundQ r.1, roundQ r.2) ∈ drawCirclePoints cx cy samples := by
  intro r hr
  rw [octantReflectionsQ_shift] at hr
  apply List.mem_flatMap.mpr
  refine ⟨s, hs, ?_⟩
  simp only [List.mem_cons, List.not_mem_nil, or_false] at hr
  rcases hr with h | h | h | h | h | h | h | h <;> subst h <;> simp [emit8]

/-- Witness for the exact-point octant symmetry at center (0, 0) with the
single sample offset (1, 2). -/
theorem drawCircle_octant_symm_witness :
    (((1 : ℚ), (2 : ℚ)) ∈ [((1 : ℚ), (2 : ℚ))]) ∧
    ∀ r ∈ octantReflectionsQ 0 0 ((0 : ℚ) + 1, (0 : ℚ) + 2),
      (roundQ r.1, roundQ r.2) ∈ drawCirclePoints 0 0 [((1 : ℚ), (2 : ℚ))] :=
  ⟨List.mem_singleton.mpr rfl,
    drawCircle_octant_symm 0 0 [((1 : ℚ), (2 : ℚ))] ((1 : ℚ), (2 : ℚ))
      (List.mem_singleton.mpr rfl)⟩

/-- Counterexample to pixel-level octant symmetry: with radius 0 every
sample offset is exactly (0, 0) even in floating point, so at center
(0.5, 0.5) the only emitted pixel is (1, 1), yet the octant reflection
(0, 0) of that pixel around the center is an integer point that is not
emitted. -/
theorem circle_symm_counterexample :
    ((0 : ℚ), (0 : ℚ)) ∈ octantReflectionsQ (1/2) (1/2) ((1 : ℚ), (1 : ℚ)) ∧
    ((1, 1) : ℤ × ℤ) ∈ drawCircleZeroR (1/2) (1/2) 1 ∧
    ((0, 0) : ℤ × ℤ) ∉ drawCircleZeroR (1/2) (1/2) 1 := by
  have hr : roundQ ((1/2 : ℚ) + 0) = 1 := by norm_num [roundQ]
  have hr2 : roundQ ((1/2 : ℚ) - 0) = 1 := by norm_num [roundQ]
  refine ⟨?_, ?_, ?_⟩
  · simp [octantReflectionsQ]
    norm_num
  · have hr3 : roundQ ((2 : ℚ)⁻¹) = 1 := by norm_num [roundQ]
    simp [drawCircleZeroR, drawCirclePoints, emit8, List.replicate, hr3, Prod.ext_iff]
  · have hr3 : roundQ ((2 : ℚ)⁻¹) = 1 := by norm_num [roundQ]
    simp [drawCircleZeroR, drawCirclePoints, emit8, List.replicate, hr3, Prod.ext_iff]

/-- The 4-connected component floodFill grows: a pixel is reachable when it
is the seed or an in-bounds 4-neighbor, carrying the captured background
color in the original grid, of a reachable pixel. -/
inductive Reach (img : Image) (bg : Color) (s : ℤ × ℤ) : ℤ × ℤ → Prop
  | seed : Reach img bg s s
  | step {p r : ℤ × ℤ} : Reach img bg s p → r ∈ neighbors p → inB img r →
      img.pix r.1 r.2 = bg → Reach img bg s r

lemma keepF_eq_true (fc bg c : Color) :
    keepF fc bg c = true ↔ (c = bg ∧ c ≠ fc) := by
  simp [keepF, not_or]

lemma inB_of_dims {img img0 : Image} (hW : img.width = img0.width)
    (hH : img.height = img0.height) (p : ℤ × ℤ) : inB img p ↔ inB img0 p := by
  unfold inB
  rw [hW, hH]

lemma floodLoop_final (img0 : Image) (bg fc : Color) (s : ℤ × ℤ)
    (hbgfc : bg ≠ fc) (hsin : inB img0 s) (hsbg : img0.pix s.1 s.2 = bg) :
    ∀ (fuel : ℕ) (img : Image) (q : List (ℤ × ℤ)),
      img.width = img0.width → img.height = img0.height →
      (∀ u v : ℤ, img.pix u v ≠ img0.pix u v →
        img.pix u v = fc ∧ img0.pix u v = bg ∧ inB img0 (u, v) ∧
          Reach img0 bg s (u, v)) →
      (∀ r ∈ q, r = s ∨ ∃ p : ℤ × ℤ,
        img.pix p.1 p.2 ≠ img0.pix p.1 p.2 ∧ r ∈ neighbors p) →
      (∀ u v : ℤ, img.pix u v ≠ img0.pix u v → ∀ r ∈ neighbors (u, v),
        ¬ inB img0 r ∨ img.pix r.1 r.2 ≠ img0.pix r.1 r.2 ∨ r ∈ q ∨
          img0.pix r.1 r.2 ≠ bg) →
      (img.pix s.1 s.2 ≠ img0.pix s.1 s.2 ∨ s ∈ q) →
      5 * (eligSet (keepF fc bg) img).card + q.length ≤ fuel →
      (∀ u v : ℤ,
        (fillLoop (keepF fc bg) fc fuel img q).pix u v ≠ img0.pix u v →
        (fillLoop (keepF fc bg) fc fuel img q).pix u v = fc ∧
          img0.pix u v = bg ∧ inB img0 (u, v) ∧ Reach img0 bg s (u, v)) ∧
      (∀ u v : ℤ,
        (fillLoop (keepF fc bg) fc fuel img q).pix u v ≠ img0.pix u v →
        ∀ r ∈ neighbors (u, v), inB img0 r → img0.pix r.1 r.2 = bg →
        (fillLoop (keepF fc bg) fc fuel img q).pix r.1 r.2 ≠
          img0.pix r.1 r.2) ∧
      (fillLoop (keepF fc bg) fc fuel img q).pix s.1 s.2 ≠
        img0.pix s.1 s.2 := by
  intro fuel
  induction fuel using Nat.strong_induction_on with
  | _ fuel ih =>
    intro img q hW hH hS hQ hC hSd hfuel
    cases q with
    | nil =>
      have hres : fillLoop (keepF fc bg) fc fuel img [] = img := by
        cases fuel <;> rfl
      rw [hres]
      refine ⟨hS, ?_, ?_⟩
      · intro u v hch r hr hrin hrbg
        rcases hC u v hch r hr with h | h | h | h
        · exact absurd hrin h
        · exact h
        · exact absurd h (List.not_mem_nil r)
        · exact absurd hrbg h
      · rcases hSd with h | h
        · exact h
        · exact absurd h (List.not_mem_nil s)
    | cons p t =>
      have hfuelpos : 1 ≤ fuel := by
        simp only [List.length_cons] at hfuel
        omega
      obtain ⟨f, rfl⟩ : ∃ f, fuel = f + 1 := ⟨fuel - 1, by omega⟩
      rw [fillLoop_cons]
      by_cases hin : inB img p
      · rw [if_pos hin]
        by_cases hkeep : keepF fc bg (img.pix p.1 p.2) = true
        · rw [if_pos hkeep]
          obtain ⟨hpbg, hpfc⟩ := (keepF_eq_true fc bg _).mp hkeep
          have hpunch : img.pix p.1 p.2 = img0.pix p.1 p.2 := by
            by_contra hchp
            exact hbgfc (by rw [← hpbg, (hS p.1 p.2 hchp).1])
          have hp0bg : img0.pix p.1 p.2 = bg := by rw [← hpunch]; exact hpbg
          have hpin0 : inB img0 p := (inB_of_dims hW hH p).mp hin
          have hpreach : Reach img0 bg s p := by
            rcases hQ p (List.mem_cons_self p t) with rfl | ⟨p2, hch2, hnb⟩
            · exact Reach.seed
            · exact Reach.step (hS p2.1 p2.2 hch2).2.2.2 hnb hpin0 hp0bg
          have hmono : ∀ u v : ℤ, img.pix u v ≠ img0.pix u v →
              (setPixel img p.1 p.2 fc).pix u v ≠ img0.pix u v := by
            intro u v hch
            rw [setPixel_pix]
            split_ifs with hup
            · obtain ⟨rfl, rfl⟩ := hup
              rw [hp0bg]
              exact Ne.symm hbgfc
            · exact hch
          have hchp2 : (setPixel img p.1 p.2 fc).pix p.1 p.2 ≠
              img0.pix p.1 p.2 := by
            rw [setPixel_pix, if_pos ⟨rfl, rfl⟩, hp0bg]
            exact Ne.symm hbgfc
          apply ih f (by omega) (setPixel img p.1 p.2 fc) (t ++ neighbors p)
            (by rw [setPixel_width, hW]) (by rw [setPixel_height, hH])
          · intro u v hch2
            by_cases hup : u = p.1 ∧ v = p.2
            · obtain ⟨rfl, rfl⟩ := hup
              refine ⟨by rw [setPixel_pix, if_pos ⟨rfl, rfl⟩], hp0bg, hpin0, ?_⟩
              simpa using hpreach
            · rw [setPixel_pix, if_neg hup] at hch2 ⊢
              exact hS u v hch2
          · intro r hr
            rcases List.mem_append.mp hr with hr | hr
            · rcases hQ r (List.mem_cons_of_mem p hr) with rfl | ⟨p2, hch2, hnb⟩
              · exact Or.inl rfl
              · exact Or.inr ⟨p2, hmono p2.1 p2.2 hch2, hnb⟩
            · exact Or.inr ⟨p, by simpa using hchp2, hr⟩
          · intro u v hch2 r hr
            by_cases hup : u = p.1 ∧ v = p.2
            · obtain ⟨rfl, rfl⟩ := hup
              exact Or.inr (Or.inr (Or.inl (List.mem_append.mpr (Or.inr hr))))
            · rw [setPixel_pix, if_neg hup] at hch2
              rcases hC u v hch2 r hr with h | h | h | h
              · exact Or.inl h
              · exact Or.inr (Or.inl (hmono r.1 r.2 h))
              · rcases List.mem_cons.mp h with rfl | h
                · exact Or.inr (Or.inl (by simpa using hchp2))
                · exact Or.inr (Or.inr (Or.inl (List.mem_append.mpr (Or.inl h))))
              · exact Or.inr (Or.inr (Or.inr h))
          · rcases hSd with h | h
            · exact Or.inl (hmono s.1 s.2 h)
            · rcases List.mem_cons.mp h with rfl | h
              · exact Or.inl (by simpa using hchp2)
              · exact Or.inr (List.mem_append.mpr (Or.inl h))
          · have hp : p = (p.1, p.2) := rfl
            have hcard := eligSet_card_step (keepF fc bg) fc (keepF_fc fc bg)
              img p.1 p.2 (hp ▸ hin) hkeep
            have hlen : (t ++ neighbors p).length = t.length + 4 := by
              simp [neighbors]
            simp only [List.length_cons] at hfuel
            omega
        · rw [if_neg hkeep]
          rw [keepF_eq_true] at hkeep
          have hskip : img.pix p.1 p.2 ≠ bg ∨ img.pix p.1 p.2 = fc := by
            by_cases hcbg : img.pix p.1 p.2 = bg
            · right
              by_contra hcfc
              exact hkeep ⟨hcbg, hcfc⟩
            · exact Or.inl hcbg
          have hpfact : img.pix p.1 p.2 ≠ img0.pix p.1 p.2 ∨
              img0.pix p.1 p.2 ≠ bg := by
            by_cases hch : img.pix p.1 p.2 = img0.pix p.1 p.2
            · right
              rcases hskip with h | h
              · rw [← hch]; exact h
              · rw [← hch, h]; exact Ne.symm hbgfc
            · exact Or.inl hch
          apply ih f (by omega) img t hW hH hS
          · intro r hr
            exact hQ r (List.mem_cons_of_mem p hr)
          · intro u v hch r hr
            rcases hC u v hch r hr with h | h | h | h
            · exact Or.inl h
            · exact Or.inr (Or.inl h)
            · rcases List.mem_cons.mp h with rfl | h
              · rcases hpfact with h2 | h2
                · exact Or.inr (Or.inl h2)
                · exact Or.inr (Or.inr (Or.inr h2))
              · exact Or.inr (Or.inr (Or.inl h))
            · exact Or.inr (Or.inr (Or.inr h))
          · rcases hSd with h | h
            · exact Or.inl h
            · rcases List.mem_cons.mp h with rfl | h
              · rcases hpfact with h2 | h2
                · exact Or.inl h2
                · exact absurd hsbg h2
              · exact Or.inr h
          · simp only [List.length_cons] at hfuel
            omega
      · rw [if_neg hin]
        have hnin0 : ¬ inB img0 p := fun hcon =>
          hin ((inB_of_dims hW hH p).mpr hcon)
        apply ih f (by omega) img t hW hH hS
        · intro r hr
          exact hQ r (List.mem_cons_of_mem p hr)
        · intro u v hch r hr
          rcases hC u v hch r hr with h | h | h | h
          · exact Or.inl h
          · exact Or.inr (Or.inl h)
          · rcases List.mem_cons.mp h with rfl | h
            · exact Or.inl hnin0
            · exact Or.inr (Or.inr (Or.inl h))
          · exact Or.inr (Or.inr (Or.inr h))
        · rcases hSd with h | h
          · exact Or.inl h
          · rcases List.mem_cons.mp h with rfl | h
            · exact absurd hsin hnin0
            · exact Or.inr h
        · simp only [List.length_cons] at hfuel
          omega

/-- Claim C3: for an in-bounds seed whose color differs from fillColor,
floodFill recolors exactly the 4-connected component of the seed among the
pixels whose original color equals the captured background color, and
leaves every other pixel unchanged. -/
theorem floodFill_exact (img : Image) (x y : ℤ) (fc : Color)
    (hin : inB img (x, y)) (hne : img.pix x y ≠ fc) :
    (∀ p : ℤ × ℤ, Reach img (img.pix x y) (x, y) p →
      (floodFill img x y fc).pix p.1 p.2 = fc) ∧
    (∀ p : ℤ × ℤ, ¬ Reach img (img.pix x y) (x, y) p →
      (floodFill img x y fc).pix p.1 p.2 = img.pix p.1 p.2) := by
  have hres : floodFill img x y fc =
      fillLoop (keepF fc (img.pix x y)) fc
        (fillFuel (keepF fc (img.pix x y)) img) img [(x, y)] := by
    unfold floodFill
    rw [if_pos hin, if_neg hne]
  obtain ⟨hSR, hCR, hSdR⟩ := floodLoop_final img (img.pix x y) fc (x, y) hne
    hin rfl (fillFuel (keepF fc (img.pix x y)) img) img [(x, y)] rfl rfl
    (fun u v hch => absurd rfl hch)
    (fun r hr => Or.inl (List.mem_singleton.mp hr))
    (fun u v hch => absurd rfl hch)
    (Or.inr (List.mem_singleton.mpr rfl))
    (by simp [fillFuel])
  rw [hres]
  have hch : ∀ p : ℤ × ℤ, Reach img (img.pix x y) (x, y) p →
      (fillLoop (keepF fc (img.pix x y)) fc
        (fillFuel (keepF fc (img.pix x y)) img) img [(x, y)]).pix p.1 p.2 ≠
        img.pix p.1 p.2 := by
    intro p hreach
    induction hreach with
    | seed => exact hSdR
    | step hp hnbr hinb hbg ih => exact hCR _ _ ih _ hnbr hinb hbg
  constructor
  · intro p hreach
    exact (hSR p.1 p.2 (hch p hreach)).1
  · intro p hnreach
    by_contra hch2
    exact hnreach (hSR p.1 p.2 hch2).2.2.2

/-- Two-by-one all-white grid used as a concrete flood fill witness input. -/
def img2 : Image := ⟨2, 1, fun _ _ => cWhite⟩

/-- Witness for flood fill exactness: on a 2x1 white grid seeded at (0,0),
the reachable pixel (1,0) turns green and an unreachable out-of-bounds
pixel keeps its color. -/
theorem floodFill_exact_witness :
    inB img2 (0, 0) ∧ img2.pix 0 0 ≠ cGreen ∧
    (floodFill img2 0 0 cGreen).pix 1 0 = cGreen := by
  refine ⟨by decide, by decide, ?_⟩
  exact (floodFill_exact img2 0 0 cGreen (by decide) (by decide)).1 (1, 0)
    (Reach.step Reach.seed (by simp [neighbors]) (by decide) (by decide))

lemma keepB_eq_true (fc bc c : Color) :
    keepB fc bc c = true ↔ (c ≠ bc ∧ c ≠ fc) := by
  simp [keepB, not_or]

/-- Strict inside of the rectangle frame [x1, x2] x [y1, y2]. -/
def interiorRect (x1 y1 x2 y2 : ℤ) (p : ℤ × ℤ) : Prop :=
  x1 < p.1 ∧ p.1 < x2 ∧ y1 < p.2 ∧ p.2 < y2

/-- Closed rectangle [x1, x2] x [y1, y2] (frame plus inside). -/
def inRect (x1 y1 x2 y2 : ℤ) (p : ℤ × ℤ) : Prop :=
  x1 ≤ p.1 ∧ p.1 ≤ x2 ∧ y1 ≤ p.2 ∧ p.2 ≤ y2

lemma mem_neighbors (p r : ℤ × ℤ) :
    r ∈ neighbors p ↔ r = (p.1 + 1, p.2) ∨ r = (p.1 - 1, p.2) ∨
      r = (p.1, p.2 + 1) ∨ r = (p.1, p.2 - 1) := by
  simp [neighbors]

lemma boundaryLoop_final (img0 : Image) (fc bc : Color) (x1 y1 x2 y2 : ℤ)
    (s : ℤ × ℤ)
    (hbds : 0 ≤ x1 ∧ x2 < (img0.width : ℤ) ∧ 0 ≤ y1 ∧ y2 < (img0.height : ℤ))
    (hframe : ∀ p : ℤ × ℤ, inRect x1 y1 x2 y2 p →
      (p.1 = x1 ∨ p.1 = x2 ∨ p.2 = y1 ∨ p.2 = y2) → img0.pix p.1 p.2 = bc)
    (hintc : ∀ p : ℤ × ℤ, interiorRect x1 y1 x2 y2 p →
      img0.pix p.1 p.2 ≠ bc ∧ img0.pix p.1 p.2 ≠ fc)
    (hsint : interiorRect x1 y1 x2 y2 s) :
    ∀ (fuel : ℕ) (img : Image) (q : List (ℤ × ℤ)),
      img.width = img0.width → img.height = img0.height →
      (∀ u v : ℤ, img.pix u v ≠ img0.pix u v →
        img.pix u v = fc ∧ interiorRect x1 y1 x2 y2 (u, v)) →
      (∀ r ∈ q, inRect x1 y1 x2 y2 r) →
      (∀ u v : ℤ, img.pix u v ≠ img0.pix u v → ∀ r ∈ neighbors (u, v),
        ¬ inB img0 r ∨ img.pix r.1 r.2 ≠ img0.pix r.1 r.2 ∨ r ∈ q ∨
          img.pix r.1 r.2 = bc ∨ img.pix r.1 r.2 = fc) →
      (img.pix s.1 s.2 ≠ img0.pix s.1 s.2 ∨ s ∈ q) →
      5 * (eligSet (keepB fc bc) img).card + q.length ≤ fuel →
      (∀ u v : ℤ,
        (fillLoop (keepB fc bc) fc fuel img q).pix u v ≠ img0.pix u v →
        (fillLoop (keepB fc bc) fc fuel img q).pix u v = fc ∧
          interiorRect x1 y1 x2 y2 (u, v)) ∧
      (∀ u v : ℤ,
        (fillLoop (keepB fc bc) fc fuel img q).pix u v ≠ img0.pix u v →
        ∀ r ∈ neighbors (u, v), interiorRect x1 y1 x2 y2 r →
        (fillLoop (keepB fc bc) fc fuel img q).pix r.1 r.2 ≠
          img0.pix r.1 r.2) ∧
      (fillLoop (keepB fc bc) fc fuel img q).pix s.1 s.2 ≠
        img0.pix s.1 s.2 := by
  have hintB : ∀ r : ℤ × ℤ, interiorRect x1 y1 x2 y2 r → inB img0 r := by
    intro r hr
    obtain ⟨h1, h2, h3, h4⟩ := hr
    obtain ⟨hb1, hb2, hb3, hb4⟩ := hbds
    exact ⟨by omega, by omega, by omega, by omega⟩
  have hsin : inB img0 s := hintB s hsint
  intro fuel
  induction fuel using Nat.strong_induction_on with
  | _ fuel ih =>
    intro img q hW hH hS hQr hC hSd hfuel
    cases q with
    | nil =>
      have hres : fillLoop (keepB fc bc) fc fuel img [] = img := by
        cases fuel <;> rfl
      rw [hres]
      refine ⟨hS, ?_, ?_⟩
      · intro u v hch r hr hrint
        rcases hC u v hch r hr with h | h | h | h | h
        · exact absurd (hintB r hrint) h
        · exact h
        · exact absurd h (List.not_mem_nil r)
        · by_cases hch2 : img.pix r.1 r.2 ≠ img0.pix r.1 r.2
          · exact hch2
          · rw [not_not] at hch2
            exact absurd (hch2 ▸ h) (hintc r hrint).1
        · by_cases hch2 : img.pix r.1 r.2 ≠ img0.pix r.1 r.2
          · exact hch2
          · rw [not_not] at hch2
            exact absurd (hch2 ▸ h) (hintc r hrint).2
      · rcases hSd with h | h
        · exact h
        · exact absurd h (List.not_mem_nil s)
    | cons p t =>
      have hfuelpos : 1 ≤ fuel := by
        simp only [List.length_cons] at hfuel
        omega
      obtain ⟨f, rfl⟩ : ∃ f, fuel = f + 1 := ⟨fuel - 1, by omega⟩
      rw [fillLoop_cons]
      by_cases hin : inB img p
      · rw [if_pos hin]
        by_cases hkeep : keepB fc bc (img.pix p.1 p.2) = true
        · rw [if_pos hkeep]
          obtain ⟨hpbc, hpfc⟩ := (keepB_eq_true fc bc _).mp hkeep
          have hpunch : img.pix p.1 p.2 = img0.pix p.1 p.2 := by
            by_contra hchp
            exact hpfc (hS p.1 p.2 hchp).1
          have hprect : inRect x1 y1 x2 y2 p := hQr p (List.mem_cons_self p t)
          have hpint : interiorRect x1 y1 x2 y2 p := by
            by_contra hni
            have hedge : p.1 = x1 ∨ p.1 = x2 ∨ p.2 = y1 ∨ p.2 = y2 := by
              obtain ⟨h1, h2, h3, h4⟩ := hprect
              unfold interiorRect at hni
              omega
            exact hpbc (hpunch.trans (hframe p hprect hedge))
          have hp0fc : img0.pix p.1 p.2 ≠ fc := fun hcon =>
            hpfc (hpunch.trans hcon)
          have hmono : ∀ u v : ℤ, img.pix u v ≠ img0.pix u v →
              (setPixel img p.1 p.2 fc).pix u v ≠ img0.pix u v := by
            intro u v hch
            rw [setPixel_pix]
            split_ifs with hup
            · obtain ⟨rfl, rfl⟩ := hup
              exact absurd hpunch hch
            · exact hch
          have hchp2 : (setPixel img p.1 p.2 fc).pix p.1 p.2 ≠
              img0.pix p.1 p.2 := by
            rw [setPixel_pix, if_pos ⟨rfl, rfl⟩]
            exact fun hcon => hp0fc hcon.symm
          apply ih f (by omega) (setPixel img p.1 p.2 fc) (t ++ neighbors p)
            (by rw [setPixel_width, hW]) (by rw [setPixel_height, hH])
          · intro u v hch2
            by_cases hup : u = p.1 ∧ v = p.2
            · obtain ⟨rfl, rfl⟩ := hup
              refine ⟨by rw [setPixel_pix, if_pos ⟨rfl, rfl⟩], ?_⟩
              simpa using hpint
            · rw [setPixel_pix, if_neg hup] at hch2 ⊢
              exact hS u v hch2
          · intro r hr
            rcases List.mem_append.mp hr with hr | hr
            · exact hQr r (List.mem_cons_of_mem p hr)
            · obtain ⟨h1, h2, h3, h4⟩ := hpint
              rcases (mem_neighbors p r).mp hr with rfl | rfl | rfl | rfl <;>
                exact ⟨by omega, by omega, by omega, by omega⟩
          · intro u v hch2 r hr
            by_cases hup : u = p.1 ∧ v = p.2
            · obtain ⟨rfl, rfl⟩ := hup
              exact Or.inr (Or.inr (Or.inl (List.mem_append.mpr (Or.inr hr))))
            · rw [setPixel_pix, if_neg hup] at hch2
              rcases hC u v hch2 r hr with h | h | h | h | h
              · exact Or.inl h
              · exact Or.inr (Or.inl (hmono r.1 r.2 h))
              · rcases List.mem_cons.mp h with rfl | h
                · exact Or.inr (Or.inl (by simpa using hchp2))
                · exact Or.inr (Or.inr (Or.inl (List.mem_append.mpr (Or.inl h))))
              · have hrp : ¬(r.1 = p.1 ∧ r.2 = p.2) := by
                  rintro ⟨he1, he2⟩
                  rw [he1, he2] at h
                  exact hpbc h
                rw [show (setPixel img p.1 p.2 fc).pix r.1 r.2 =
                  img.pix r.1 r.2 by rw [setPixel_pix, if_neg hrp]]
                exact Or.inr (Or.inr (Or.inr (Or.inl h)))
              · have hrp : ¬(r.1 = p.1 ∧ r.2 = p.2) := by
                  rintro ⟨he1, he2⟩
                  rw [he1, he2] at h
                  exact hpfc h
                rw [show (setPixel img p.1 p.2 fc).pix r.1 r.2 =
                  img.pix r.1 r.2 by rw [setPixel_pix, if_neg hrp]]
                exact Or.inr (Or.inr (Or.inr (Or.inr h)))
          · rcases hSd with h | h
            · exact Or.inl (hmono s.1 s.2 h)
            · rcases List.mem_cons.mp h with rfl | h
              · exact Or.inl (by simpa using hchp2)
              · exact Or.inr (List.mem_append.mpr (Or.inl h))
          · have hp : p = (p.1, p.2) := rfl
            have hcard := eligSet_card_step (keepB fc bc) fc (keepB_fc fc bc)
              img p.1 p.2 (hp ▸ hin) hkeep
            have hlen : (t ++ neighbors p).length = t.length + 4 := by
              simp [neighbors]
            simp only [List.length_cons] at hfuel
            omega
        · rw [if_neg hkeep]
          rw [keepB_eq_true] at hkeep
          have hskip : img.pix p.1 p.2 = bc ∨ img.pix p.1 p.2 = fc := by
            by_cases hcbc : img.pix p.1 p.2 = bc
            · exact Or.inl hcbc
            · right
              by_contra hcfc
              exact hkeep ⟨hcbc, hcfc⟩
          apply ih f (by omega) img t hW hH hS
          · intro r hr
            exact hQr r (List.mem_cons_of_mem p hr)
          · intro u v hch r hr
            rcases hC u v hch r hr with h | h | h | h | h
            · exact Or.inl h
            · exact Or.inr (Or.inl h)
            · rcases List.mem_cons.mp h with rfl | h
              · rcases hskip with h2 | h2
                · exact Or.inr (Or.inr (Or.inr (Or.inl h2)))
                · exact Or.inr (Or.inr (Or.inr (Or.inr h2)))
              · exact Or.inr (Or.inr (Or.inl h))
            · exact Or.inr (Or.inr (Or.inr (Or.inl h)))
            · exact Or.inr (Or.inr (Or.inr (Or.inr h)))
          · rcases hSd with h | h
            · exact Or.inl h
            · rcases List.mem_cons.mp h with rfl | h
              · left
                intro hch
                rcases hskip with h2 | h2
                · exact (hintc s hsint).1 (hch ▸ h2)
                · exact (hintc s hsint).2 (hch ▸ h2)
              · exact Or.inr h
          · simp only [List.length_cons] at hfuel
            omega
      · rw [if_neg hin]
        have hnin0 : ¬ inB img0 p := fun hcon =>
          hin ((inB_of_dims hW hH p).mpr hcon)
        apply ih f (by omega) img t hW hH hS
        · intro r hr
          exact hQr r (List.mem_cons_of_mem p hr)
        · intro u v hch r hr
          rcases hC u v hch r hr with h | h | h | h | h
          · exact Or.inl h
          · exact Or.inr (Or.inl h)
          · rcases List.mem_cons.mp h with rfl | h
            · exact Or.inl hnin0
            · exact Or.inr (Or.inr (Or.inl h))
          · exact Or.inr (Or.inr (Or.inr (Or.inl h)))
          · exact Or.inr (Or.inr (Or.inr (Or.inr h)))
        · rcases hSd with h | h
          · exact Or.inl h
          · rcases List.mem_cons.mp h with rfl | h
            · exact absurd hsin hnin0
            · exact Or.inr h
        · simp only [List.length_cons] at hfuel
          omega

instance (x1 y1 x2 y2 : ℤ) (p : ℤ × ℤ) :
    Decidable (interiorRect x1 y1 x2 y2 p) := by
  unfold interiorRect
  infer_instance

instance (x1 y1 x2 y2 : ℤ) (p : ℤ × ℤ) :
    Decidable (inRect x1 y1 x2 y2 p) := by
  unfold inRect
  infer_instance

lemma rect_path (x1 y1 x2 y2 : ℤ) (s : ℤ × ℤ)
    (hs : interiorRect x1 y1 x2 y2 s) (P : ℤ × ℤ → Prop) (hbase : P s)
    (hstep : ∀ p : ℤ × ℤ, P p → ∀ r ∈ neighbors p,
      interiorRect x1 y1 x2 y2 r → P r) :
    ∀ t : ℤ × ℤ, interiorRect x1 y1 x2 y2 t → P t := by
  obtain ⟨hs1, hs2, hs3, hs4⟩ := hs
  have key : ∀ d : ℕ, ∀ t : ℤ × ℤ, interiorRect x1 y1 x2 y2 t →
      (t.1 - s.1).natAbs + (t.2 - s.2).natAbs = d → P t := by
    intro d
    induction d using Nat.strong_induction_on with
    | _ d ihd =>
      intro t ht hd
      obtain ⟨ht1, ht2, ht3, ht4⟩ := ht
      by_cases he1 : t.1 = s.1
      · by_cases he2 : t.2 = s.2
        · have hts : t = s := Prod.ext he1 he2
          rw [hts]
          exact hbase
        · rcases Ne.lt_or_lt he2 with hlt | hgt
          · have hP : P (t.1, t.2 + 1) := by
              apply ihd (d - 1) (by omega) (t.1, t.2 + 1)
                ⟨ht1, ht2, by omega, by omega⟩
              show (t.1 - s.1).natAbs + (t.2 + 1 - s.2).natAbs = d - 1
              omega
            apply hstep (t.1, t.2 + 1) hP t ?_ ⟨ht1, ht2, ht3, ht4⟩
            rw [mem_neighbors]
            exact Or.inr (Or.inr (Or.inr (Prod.ext rfl (by omega))))
          · have hP : P (t.1, t.2 - 1) := by
              apply ihd (d - 1) (by omega) (t.1, t.2 - 1)
                ⟨ht1, ht2, by omega, by omega⟩
              show (t.1 - s.1).natAbs + (t.2 - 1 - s.2).natAbs = d - 1
              omega
            apply hstep (t.1, t.2 - 1) hP t ?_ ⟨ht1, ht2, ht3, ht4⟩
            rw [mem_neighbors]
            exact Or.inr (Or.inr (Or.inl (Prod.ext rfl (by omega))))
      · rcases Ne.lt_or_lt he1 with hlt | hgt
        · have hP : P (t.1 + 1, t.2) := by
            apply ihd (d - 1) (by omega) (t.1 + 1, t.2)
              ⟨by omega, by omega, ht3, ht4⟩
            show (t.1 + 1 - s.1).natAbs + (t.2 - s.2).natAbs = d - 1
            omega
          apply hstep (t.1 + 1, t.2) hP t ?_ ⟨ht1, ht2, ht3, ht4⟩
          rw [mem_neighbors]
          exact Or.inr (Or.inl (Prod.ext (by omega) rfl))
        · have hP : P (t.1 - 1, t.2) := by
            apply ihd (d - 1) (by omega) (t.1 - 1, t.2)
              ⟨by omega, by omega, ht3, ht4⟩
            show (t.1 - 1 - s.1).natAbs + (t.2 - s.2).natAbs = d - 1
            omega
          apply hstep (t.1 - 1, t.2) hP t ?_ ⟨ht1, ht2, ht3, ht4⟩
          rw [mem_neighbors]
          exact Or.inl (Prod.ext (by omega) rfl)
  intro t ht
  exact key _ t ht rfl

/-- Claim C1 (amended: every pixel strictly inside the frame is also
required to differ from boundaryColor and fillColor): with a closed
bc-colored rectangle frame inside the grid and a seed strictly inside,
boundaryFill turns every pixel strictly inside the frame into fillColor,
leaves every boundaryColor pixel unchanged, and leaves every pixel outside
the closed rectangle unchanged. -/
theorem boundaryFill_frame (img : Image) (x1 y1 x2 y2 sx sy : ℤ)
    (fc bc : Color)
    (hbds : 0 ≤ x1 ∧ x2 < (img.width : ℤ) ∧ 0 ≤ y1 ∧ y2 < (img.height : ℤ))
    (hframe : ∀ p : ℤ × ℤ, inRect x1 y1 x2 y2 p →
      (p.1 = x1 ∨ p.1 = x2 ∨ p.2 = y1 ∨ p.2 = y2) → img.pix p.1 p.2 = bc)
    (hintc : ∀ p : ℤ × ℤ, interiorRect x1 y1 x2 y2 p →
      img.pix p.1 p.2 ≠ bc ∧ img.pix p.1 p.2 ≠ fc)
    (hseed : interiorRect x1 y1 x2 y2 (sx, sy)) :
    (∀ p : ℤ × ℤ, interiorRect x1 y1 x2 y2 p →
      (boundaryFill img sx sy fc bc).pix p.1 p.2 = fc) ∧
    (∀ p : ℤ × ℤ, img.pix p.1 p.2 = bc →
      (boundaryFill img sx sy fc bc).pix p.1 p.2 = img.pix p.1 p.2) ∧
    (∀ p : ℤ × ℤ, ¬ inRect x1 y1 x2 y2 p →
      (boundaryFill img sx sy fc bc).pix p.1 p.2 = img.pix p.1 p.2) := by
  have hseedB : inB img (sx, sy) := by
    obtain ⟨h1, h2, h3, h4⟩ := hseed
    obtain ⟨b1, b2, b3, b4⟩ := hbds
    exact ⟨by omega, by omega, by omega, by omega⟩
  have hseedc := hintc (sx, sy) hseed
  have hne : ¬(img.pix sx sy = bc ∨ img.pix sx sy = fc) := by
    rintro (h | h)
    · exact hseedc.1 h
    · exact hseedc.2 h
  have hres : boundaryFill img sx sy fc bc =
      fillLoop (keepB fc bc) fc (fillFuel (keepB fc bc) img) img [(sx, sy)] := by
    unfold boundaryFill
    rw [if_pos hseedB, if_neg hne]
  obtain ⟨hSR, hCFR, hSdR⟩ := boundaryLoop_final img fc bc x1 y1 x2 y2 (sx, sy)
    hbds hframe hintc hseed (fillFuel (keepB fc bc) img) img [(sx, sy)] rfl rfl
    (fun u v hch => absurd rfl hch)
    (fun r hr => by
      rw [List.mem_singleton.mp hr]
      obtain ⟨h1, h2, h3, h4⟩ := hseed
      exact ⟨by omega, by omega, by omega, by omega⟩)
    (fun u v hch => absurd rfl hch)
    (Or.inr (List.mem_singleton.mpr rfl))
    (by simp [fillFuel])
  rw [hres]
  have hchAll : ∀ t : ℤ × ℤ, interiorRect x1 y1 x2 y2 t →
      (fillLoop (keepB fc bc) fc (fillFuel (keepB fc bc) img) img
        [(sx, sy)]).pix t.1 t.2 ≠ img.pix t.1 t.2 :=
    rect_path x1 y1 x2 y2 (sx, sy) hseed _ hSdR
      (fun p hp r hr hrint => hCFR p.1 p.2 hp r hr hrint)
  refine ⟨?_, ?_, ?_⟩
  · intro p hp
    exact (hSR p.1 p.2 (hchAll p hp)).1
  · intro p hpbc
    by_contra hch
    exact (hintc p (by simpa using (hSR p.1 p.2 hch).2)).1 hpbc
  · intro p hnr
    by_contra hch
    apply hnr
    have hint := (hSR p.1 p.2 hch).2
    obtain ⟨h1, h2, h3, h4⟩ := hint
    exact ⟨by omega, by omega, by omega, by omega⟩

/-- Three-by-three grid: black frame with a single white interior pixel. -/
def imgFrameW : Image :=
  ⟨3, 3, fun u v => if u = 1 ∧ v = 1 then cWhite else cBlack⟩

/-- Witness for the amended boundary fill containment claim on the 3x3
framed grid: the interior pixel turns green, the frame stays black. -/
theorem boundaryFill_frame_witness :
    imgFrameW.pix 1 1 ≠ cBlack ∧ imgFrameW.pix 1 1 ≠ cGreen ∧
    (boundaryFill imgFrameW 1 1 cGreen cBlack).pix 1 1 = cGreen ∧
    (boundaryFill imgFrameW 1 1 cGreen cBlack).pix 0 0 = imgFrameW.pix 0 0 := by
  have h := boundaryFill_frame imgFrameW 0 0 2 2 1 1 cGreen cBlack
    ⟨by decide, by decide, by decide, by decide⟩
    (by
      intro p hp hedge
      obtain ⟨h1, h2, h3, h4⟩ := hp
      have hne : ¬(p.1 = 1 ∧ p.2 = 1) := by omega
      show (if p.1 = 1 ∧ p.2 = 1 then cWhite else cBlack) = cBlack
      rw [if_neg hne])
    (by
      intro p hp
      obtain ⟨h1, h2, h3, h4⟩ := hp
      have hp1 : p.1 = 1 := by omega
      have hp2 : p.2 = 1 := by omega
      show (if p.1 = 1 ∧ p.2 = 1 then cWhite else cBlack) ≠ cBlack ∧
        (if p.1 = 1 ∧ p.2 = 1 then cWhite else cBlack) ≠ cGreen
      rw [if_pos ⟨hp1, hp2⟩]
      exact ⟨by decide, by decide⟩)
    ⟨by decide, by decide, by decide, by decide⟩
  exact ⟨by decide, by decide,
    h.1 (1, 1) ⟨by decide, by decide, by decide, by decide⟩,
    h.2.1 (0, 0) (by decide)⟩

/-- Five-by-three grid: closed black frame on [0,4] x [0,2] with interior
row y = 1 colored white at x = 1 and x = 3 and black at x = 2 (an interior
black pillar splitting the inside in two). -/
def imgPillar : Image :=
  ⟨5, 3, fun u v =>
    if (u = 1 ∧ v = 1) ∨ (u = 3 ∧ v = 1) then cWhite else cBlack⟩

/-- Counterexample to the unamended containment claim: the grid has a
closed gap-free black frame on [0,4] x [0,2] and the seed (1,1) is strictly
inside with a color that is neither boundary nor fill color, yet after
boundaryFill the strictly interior pixel (3,1), cut off by the interior
black pillar at (2,1), does not hold the fill color. -/
theorem boundary_frame_counterexample :
    (∀ x ∈ Finset.Icc (0 : ℤ) 4, ∀ y ∈ Finset.Icc (0 : ℤ) 2,
      (x = 0 ∨ x = 4 ∨ y = 0 ∨ y = 2) → imgPillar.pix x y = cBlack) ∧
    ((0 : ℤ) ≤ 0 ∧ (4 : ℤ) < (imgPillar.width : ℤ) ∧ (0 : ℤ) ≤ 0 ∧
      (2 : ℤ) < (imgPillar.height : ℤ)) ∧
    interiorRect 0 0 4 2 (1, 1) ∧
    imgPillar.pix 1 1 ≠ cBlack ∧ imgPillar.pix 1 1 ≠ cGreen ∧
    interiorRect 0 0 4 2 (3, 1) ∧ cGreen ≠ cBlack ∧
    (boundaryFill imgPillar 1 1 cGreen cBlack).pix 3 1 ≠ cGreen := by
  decide

end Silnik2D
